import Mathlib

/-!
Verification of the llama-cli protocol adapter core.

This file gives a shallow embedding of the adapter/streaming code of the
repository (`packages/core/src/core/llamacppClient.ts`, the schema
translator, and the content-generator facade) and proves properties of
that embedding.  JavaScript strings are modelled as `String`/`List Char`,
machine objects as structures with `Option` fields for optional/absent
properties, and `JSON.parse`/`JSON.stringify` as an executable parser and
serializer over an inductive `Json` value type.
-/

/-! ### Wire data model (openaiTypes.ts) -/

/-- Wire tool call (`OpenAIToolCall` in openaiTypes.ts).  `type` is the
literal string "function" wherever the code constructs one; `name` and
`arguments` are the fields of its nested `function` object. -/
structure OpenAIToolCall where
  id : String
  type : String
  name : String
  arguments : String
deriving DecidableEq, Repr

/-- One element of a streaming `delta.tool_calls` array: an `index`, an
optional `id`, and partial `function.name` / `function.arguments`
fragments, each possibly absent. -/
structure ToolCallDelta where
  index : Option Nat
  id : Option String
  fnName : Option String
  fnArgs : Option String
deriving DecidableEq, Repr

/-- The `choices[0].delta` object of one streaming chunk: optional text
`content` and an optional `tool_calls` array. -/
structure DeltaObj where
  content : Option String
  tool_calls : Option (List ToolCallDelta)
deriving DecidableEq, Repr

/-- JavaScript truthiness of an optional string: `undefined` and the empty
string are falsy, every other string is truthy. -/
def truthy : Option String → Bool
  | none => false
  | some s => s != ""

/-! ### Streaming tool-call assembler (chatCompletionStream) -/

/-- An event yielded by `chatCompletionStream`: either a plain text
fragment (`yield delta.content`) or a terminal batch of completed tool
calls (`yield \x7b tool_calls \x7d`). -/
inductive StreamEvent where
  | text (s : String)
  | toolCalls (calls : List OpenAIToolCall)
deriving DecidableEq, Repr

/-- One decoded `data:` line of the SSE body, as the loop in
`chatCompletionStream` sees it: the `[DONE]` terminal marker, a chunk
whose `choices[0]?.delta` is `d` (possibly absent), a line whose payload
failed to parse (the `catch` branch), or a line without the `data: `
marker, which the loop ignores. -/
inductive StreamLine where
  | done
  | chunk (d : Option DeltaObj)
  | malformed
  | other
deriving DecidableEq, Repr

/-- Accumulator state of the assembler: the single in-progress tool call
(`currentToolCall`) and the completed list (`toolCallAccumulator`). -/
structure AccState where
  currentToolCall : Option OpenAIToolCall
  toolCallAccumulator : List OpenAIToolCall
deriving DecidableEq, Repr

/-- The guarded push `if (currentToolCall && currentToolCall.id)
toolCallAccumulator.push(currentToolCall)` appearing at all three close
sites of `chatCompletionStream`. -/
def pushCurrent (cur : Option OpenAIToolCall) (acc : List OpenAIToolCall) : List OpenAIToolCall :=
  match cur with
  | some c => if c.id = "" then acc else acc ++ [c]
  | none => acc

/-- Body of the `for (const toolCallDelta of delta.tool_calls)` loop: a
delta with `index === 0` and a truthy `id` closes the open call and opens
a fresh one seeded with empty name/arguments; then, if a call is open,
truthy name/arguments fragments are appended to it. -/
def processToolCallDelta (st : AccState) (tcd : ToolCallDelta) : AccState :=
  let st1 :=
    if tcd.index == some 0 && truthy tcd.id then
      { currentToolCall := some { id := tcd.id.getD "", type := "function", name := "", arguments := "" }
      , toolCallAccumulator := pushCurrent st.currentToolCall st.toolCallAccumulator }
    else st
  match st1.currentToolCall with
  | none => st1
  | some c =>
    let c1 := if truthy tcd.fnName then { c with name := c.name ++ tcd.fnName.getD "" } else c
    let c2 := if truthy tcd.fnArgs then { c1 with arguments := c1.arguments ++ tcd.fnArgs.getD "" } else c1
    { st1 with currentToolCall := some c2 }

/-- Text fragments yielded while handling one parsed chunk: the
`if (delta?.content) yield delta.content` step. -/
def chunkTexts : Option DeltaObj → List String
  | some dl => if truthy dl.content then [dl.content.getD ""] else []
  | none => []

/-- Events yielded while handling one parsed chunk (text only; tool-call
deltas never yield immediately). -/
def chunkTextEvents (d : Option DeltaObj) : List StreamEvent :=
  (chunkTexts d).map StreamEvent.text

/-- State effect of one parsed chunk: fold the tool-call deltas, if any,
through the accumulator. -/
def chunkStep (st : AccState) (d : Option DeltaObj) : AccState :=
  match d with
  | some dl =>
    match dl.tool_calls with
    | some tcds => tcds.foldl processToolCallDelta st
    | none => st
  | none => st

/-- State effect of one decoded line (`done` never reaches this in the
loop; malformed and non-`data:` lines leave the state unchanged). -/
def stepLine (st : AccState) : StreamLine → AccState
  | .chunk d => chunkStep st d
  | _ => st

/-- The closing logic shared by the `[DONE]` branch and the
transport-close path: push the open call (when its id is truthy) and
yield one batch event when the completed list is non-empty. -/
def flush (st : AccState) : List StreamEvent :=
  let acc := pushCurrent st.currentToolCall st.toolCallAccumulator
  if acc = [] then [] else [StreamEvent.toolCalls acc]

/-- The event sequence produced by the streaming loop of
`chatCompletionStream` from a given accumulator state and remaining
decoded lines.  `[DONE]` flushes and returns; transport close (end of
lines) flushes; malformed lines are warned about and skipped. -/
def runStream : AccState → List StreamLine → List StreamEvent
  | st, [] => flush st
  | st, .done :: _ => flush st
  | st, .chunk d :: rest => chunkTextEvents d ++ runStream (chunkStep st d) rest
  | st, .malformed :: rest => runStream st rest
  | st, .other :: rest => runStream st rest

/-- Initial accumulator state: `currentToolCall = null`,
`toolCallAccumulator = []`. -/
def initAcc : AccState := { currentToolCall := none, toolCallAccumulator := [] }

/-- The full event sequence of one `chatCompletionStream` call over the
decoded lines of the response body. -/
def chatCompletionStream (lines : List StreamLine) : List StreamEvent :=
  runStream initAcc lines

/-- The `line.trim()` call of the loop, over the character list of the
line: whitespace is removed from both ends. -/
def trimChars (l : List Char) : List Char :=
  ((l.dropWhile Char.isWhitespace).reverse.dropWhile Char.isWhitespace).reverse

/-- Line decoding of `chatCompletionStream`: trim the line, require the
`data: ` marker, slice off the first 6 characters, compare against the
`[DONE]` literal, and otherwise hand the payload to the JSON chunk
decoder (`parseChunk` models `JSON.parse` composed with the
`chunk.choices[0]?.delta` access; `none` is the `catch` branch). -/
def classifyLine (parseChunk : List Char → Option (Option DeltaObj)) (line : List Char) : StreamLine :=
  let trimmed := trimChars line
  if "data: ".toList.isPrefixOf trimmed then
    let data := trimmed.drop 6
    if data = "[DONE]".toList then .done
    else
      match parseChunk data with
      | some d => .chunk d
      | none => .malformed
  else .other

/-- The event sequence of one `chatCompletionStream` call over the raw
`data:` lines of the response body. -/
def chatCompletionStreamRaw (parseChunk : List Char → Option (Option DeltaObj))
    (lines : List (List Char)) : List StreamEvent :=
  chatCompletionStream (lines.map (classifyLine parseChunk))

/-- A chunk whose single tool-call delta announces a fresh call at index 0
with the given id and a function-name fragment. -/
def openDelta (theId theName : String) : StreamLine :=
  StreamLine.chunk (some ⟨none, some [⟨some 0, some theId, some theName, none⟩]⟩)

/-- A chunk whose single tool-call delta carries only an arguments fragment. -/
def argsDelta (fragment : String) : StreamLine :=
  StreamLine.chunk (some ⟨none, some [⟨none, none, none, some fragment⟩]⟩)

/-! ### Structural lemmas about the streaming loop -/

/-- Text fragments of the decoded deltas, in decode order, up to the first
terminal marker: the observation the ordering guarantee is stated
against. -/
def decodedTexts : List StreamLine → List String
  | [] => []
  | .done :: _ => []
  | .chunk d :: rest => chunkTexts d ++ decodedTexts rest
  | .malformed :: rest => decodedTexts rest
  | .other :: rest => decodedTexts rest

/-- Decoded lines before the first terminal marker: the ones whose state
effect the loop actually applies. -/
def preDone : List StreamLine → List StreamLine
  | [] => []
  | .done :: _ => []
  | l :: rest => l :: preDone rest

/-- Whether an event is the tool-call batch. -/
def isBatch : StreamEvent → Bool
  | .toolCalls _ => true
  | .text _ => false

/-- The text payload of an event, when it is a text event. -/
def textOf : StreamEvent → Option String
  | .text s => some s
  | .toolCalls _ => none

/-- An accumulator state is well-formed when the open call and every
completed call carry a non-empty id. -/
def goodState (st : AccState) : Prop :=
  (∀ c, st.currentToolCall = some c → c.id ≠ "")
    ∧ (∀ c ∈ st.toolCallAccumulator, c.id ≠ "")

/-- The fragment-append half of the tool-call delta handler: truthy
function-name and arguments fragments are concatenated onto the open
call, all other fields unchanged. -/
def appendFragments (c : OpenAIToolCall) (tcd : ToolCallDelta) : OpenAIToolCall :=
  let c1 := if truthy tcd.fnName then { c with name := c.name ++ tcd.fnName.getD "" } else c
  if truthy tcd.fnArgs then { c1 with arguments := c1.arguments ++ tcd.fnArgs.getD "" } else c1

/-! ### Model discovery (initialize / extractModelName) -/

/-- Entry of the `models` array of the `/v1/models` response; only the
`name` field is consumed by the client (the other fields of
`LlamaCppModel` are never read). -/
structure LlamaCppModel where
  name : String
deriving DecidableEq, Repr

/-- Entry of the `data` array of the `/v1/models` response; only the `id`
field is consumed by the client. -/
structure OpenAIModel where
  id : String
deriving DecidableEq, Repr

/-- The decoded `/v1/models` payload (`LlamaCppModelsResponse`): either
array may be absent. -/
structure LlamaCppModelsResponse where
  models : Option (List LlamaCppModel)
  data : Option (List OpenAIModel)
deriving DecidableEq, Repr

/-- JavaScript `String.prototype.split(sep)` for a one-character
separator, over character lists: splitting never yields an empty list and
no piece contains the separator. -/
def splitOnChar (sep : Char) : List Char → List (List Char)
  | [] => [[]]
  | c :: cs =>
    if c = sep then [] :: splitOnChar sep cs
    else
      match splitOnChar sep cs with
      | r :: rs => (c :: r) :: rs
      | [] => [[c]]

/-- The character list of the literal `.gguf` extension. -/
def ggufSuffix : List Char := ['.', 'g', 'g', 'u', 'f']

/-- The `filename.replace(/\.gguf$/, '')` step: one trailing `.gguf`
occurrence, and only one, is removed. -/
def stripGgufOnce (l : List Char) : List Char :=
  if ggufSuffix <:+ l then l.take (l.length - 5) else l

/-- Success of the anchored `^(.+?)[-_](.+)$` probe: some interior
character is a dash or an underscore.  When the probe succeeds the code
returns `match[0]`, which for a fully anchored pattern is the entire
input, so both branches of `extractModelName` return the same string. -/
def hasBrandModelSep (l : List Char) : Bool :=
  ((l.drop 1).dropLast).any (fun c => c == '-' || c == '_')

/-- The `extractModelName` helper of `LlamaCppClient`: take the last
`/`-separated path component, strip one trailing `.gguf`, and probe for a
brand/model pattern (whose match is the whole string). -/
def extractModelName (modelPath : String) : String :=
  let parts := splitOnChar '/' modelPath.toList
  let filename := parts.getLastD []
  let nameWithoutExt := stripGgufOnce filename
  if hasBrandModelSep nameWithoutExt then String.mk nameWithoutExt else String.mk nameWithoutExt

/-- Outcome of the models-list handling inside `initialize()`: either a
selected raw model identifier with its display name, or the
`No models available` discovery failure. -/
inductive InitResult where
  | ok (model displayName : String)
  | discoveryError
deriving DecidableEq, Repr

/-- The models-list handling of `initialize()` (modelled from the point
where the response JSON is available): prefer a non-empty `models` array,
fall back to a non-empty `data` array, and fail otherwise. -/
def initModel (r : LlamaCppModelsResponse) : InitResult :=
  match r.models with
  | some (m :: _) => .ok m.name (extractModelName m.name)
  | _ =>
    match r.data with
    | some (d :: _) => .ok d.id (extractModelName d.id)
    | _ => .discoveryError

/-- The model-identity fields of `LlamaCppClient`. -/
structure ClientState where
  model : String
  displayName : String
deriving DecidableEq, Repr

/-- Field values set by the constructor: `model = ''`,
`displayName = 'llama.cpp'`. -/
def newClientState : ClientState := { model := "", displayName := "llama.cpp" }

/-- Effect of one `initialize()` call on the client fields: on success
both fields are assigned, on the discovery failure the error propagates
and the fields are left untouched. -/
def applyInitResult (st : ClientState) (r : LlamaCppModelsResponse) : ClientState × Bool :=
  match initModel r with
  | .ok m d => ({ model := m, displayName := d }, true)
  | .discoveryError => (st, false)

/-! ### Content generator facade: countTokens -/

/-- A request `Part` object: only its optional `text` field is read. -/
structure PartObj where
  text : Option String
deriving DecidableEq, Repr

/-- A request `Content` object: a role marker and an optional parts
array.  The role value never influences `countTokens`. -/
structure ContentObj where
  role : String
  parts : Option (List PartObj)
deriving DecidableEq, Repr

/-- One element of the normalized contents list: a plain string, a
`Content` object (distinguished by its `role` property), or a bare
`Part` object. -/
inductive ContentItem where
  | strContent (s : String)
  | contentObj (c : ContentObj)
  | partObj (p : PartObj)
deriving DecidableEq, Repr

/-- The `ContentListUnion` request shape: either a single item or an
array (`Array.isArray(request.contents) ? request.contents :
[request.contents]`). -/
inductive ContentListUnion where
  | single (c : ContentItem)
  | many (cs : List ContentItem)
deriving DecidableEq, Repr

def normalizeContents : ContentListUnion → List ContentItem
  | .single c => [c]
  | .many cs => cs

/-- JavaScript `Array.prototype.join(' ')`. -/
def joinSpace : List String → String
  | [] => ""
  | [s] => s
  | s :: rest => s ++ " " ++ joinSpace rest

/-- The text extracted from one content item by `countTokens`: a string
is used as-is; a `Content` contributes its parts' texts joined by single
spaces (absent parts give the empty string); a `Part` contributes its
text (absent gives the empty string). -/
def itemText : ContentItem → String
  | .strContent s => s
  | .contentObj c =>
    match c.parts with
    | some ps => joinSpace (ps.map fun p => p.text.getD "")
    | none => ""
  | .partObj p => p.text.getD ""

/-- The `countTokens` facade method: build `contentText` by appending
each item's text plus one space, then return `Math.ceil(length / 4)`. -/
def countTokens (contents : ContentListUnion) : Nat :=
  let contentText :=
    (normalizeContents contents).foldl (fun acc c => acc ++ itemText c ++ " ") ""
  (contentText.length + 3) / 4

/-! ### JSON values, JSON.stringify and JSON.parse

The schema translator calls the JavaScript `JSON.stringify` and
`JSON.parse` runtime functions.  They are modelled here by an executable
serializer and recursive-descent parser over an inductive value type
(numbers restricted to integers, and string escapes restricted to the
common single-character escapes; the translator claims only need the
fragment the serializer emits). -/

/-- A JSON value: null, booleans, integer numbers, strings, arrays, and
objects as ordered field lists. -/
inductive Json where
  | null
  | bool (b : Bool)
  | num (n : Int)
  | str (s : String)
  | arr (elems : List Json)
  | obj (fields : List (String × Json))

/-- Serialization of one string character, as `JSON.stringify` escapes
it. -/
def escChar (c : Char) : List Char :=
  if c = '"' then ['\\', '"']
  else if c = '\\' then ['\\', '\\']
  else if c = '\n' then ['\\', 'n']
  else if c = '\t' then ['\\', 't']
  else if c = '\r' then ['\\', 'r']
  else if c = '\x08' then ['\\', 'b']
  else if c = '\x0c' then ['\\', 'f']
  else [c]

def escList : List Char → List Char
  | [] => []
  | c :: cs => escChar c ++ escList cs

/-- Serialization of a JSON string literal with its surrounding quotes. -/
def serStringChars (s : String) : List Char :=
  '"' :: (escList s.toList ++ ['"'])

/-- Little-endian base-10 digits, with explicit fuel so reduction is
structural (agrees with `Nat.digits 10` once the fuel covers the input). -/
def natDigitsAux : Nat → Nat → List Nat
  | 0, _ => []
  | _ + 1, 0 => []
  | fuel + 1, n + 1 => (n + 1) % 10 :: natDigitsAux fuel ((n + 1) / 10)

/-- Decimal digits of a natural number, most significant first. -/
def serNatChars (n : Nat) : List Char :=
  if n = 0 then ['0'] else ((natDigitsAux n n).map Nat.digitChar).reverse

/-- Decimal rendering of an integer. -/
def serIntChars (i : Int) : List Char :=
  if i < 0 then '-' :: serNatChars i.natAbs else serNatChars i.natAbs

/-- Characters of a keyword literal. -/
def litChars (s : String) : List Char := s.toList

mutual
def serJsonChars : Json → List Char
  | .null => litChars "null"
  | .bool b => litChars (if b then "true" else "false")
  | .num i => serIntChars i
  | .str s => serStringChars s
  | .arr es => '[' :: serElems es
  | .obj fs => '\x7b' :: serFields fs
def serElems : List Json → List Char
  | [] => [']']
  | [v] => serJsonChars v ++ [']']
  | v :: vs => serJsonChars v ++ ',' :: serElems vs
def serFields : List (String × Json) → List Char
  | [] => ['\x7d']
  | [(k, v)] => serStringChars k ++ ':' :: (serJsonChars v ++ ['\x7d'])
  | (k, v) :: fs => serStringChars k ++ ':' :: (serJsonChars v ++ ',' :: serFields fs)
end

/-- The model of `JSON.stringify`. -/
def serJson (v : Json) : String :=
  String.mk (serJsonChars v)

/-- JSON insignificant whitespace. -/
def isWsChar (c : Char) : Bool :=
  c == ' ' || c == '\r' || c == '\n' || c == '\t'

def skipWs : List Char → List Char
  | [] => []
  | c :: cs => if isWsChar c then skipWs cs else c :: cs

/-- Inverse of the string escapes handled by the serializer (plus the
`\/` escape JSON allows). -/
def unescapeChar (e : Char) : Option Char :=
  if e = '"' then some '"'
  else if e = '\\' then some '\\'
  else if e = '/' then some '/'
  else if e = 'n' then some '\n'
  else if e = 't' then some '\t'
  else if e = 'r' then some '\r'
  else if e = 'b' then some '\x08'
  else if e = 'f' then some '\x0c'
  else none

/-- Parse the body of a string literal after the opening quote, up to and
including the closing quote; returns the decoded characters and the
remaining input. -/
def parseStringBody : List Char → Option (List Char × List Char)
  | [] => none
  | c :: cs =>
    if c = '"' then some ([], cs)
    else if c = '\\' then
      match cs with
      | [] => none
      | e :: cs2 =>
        match unescapeChar e with
        | none => none
        | some u =>
          match parseStringBody cs2 with
          | none => none
          | some (body, rest) => some (u :: body, rest)
    else
      match parseStringBody cs with
      | none => none
      | some (body, rest) => some (c :: body, rest)

def digitVal (c : Char) : Nat := c.toNat - 48

/-- Greedily consume decimal digits, accumulating their value. -/
def takeDigits (acc : Nat) : List Char → Nat × List Char
  | [] => (acc, [])
  | c :: cs => if c.isDigit then takeDigits (acc * 10 + digitVal c) cs else (acc, c :: cs)

/-- Parse a natural number literal: at least one digit, greedy. -/
def parseNat : List Char → Option (Nat × List Char)
  | [] => none
  | c :: cs => if c.isDigit then some (takeDigits (digitVal c) cs) else none

/-- Match a literal keyword tail. -/
def stripLit : List Char → List Char → Option (List Char)
  | [], cs => some cs
  | _ :: _, [] => none
  | l :: ls, c :: cs => if c = l then stripLit ls cs else none

mutual
def parseVal : Nat → List Char → Option (Json × List Char)
  | 0, _ => none
  | fuel + 1, cs =>
    match skipWs cs with
    | [] => none
    | c :: rest =>
      if c.isDigit then
        match parseNat (c :: rest) with
        | some (n, r) => some (.num (Int.ofNat n), r)
        | none => none
      else if c = '-' then
        match parseNat rest with
        | some (n, r) => some (.num (-(Int.ofNat n)), r)
        | none => none
      else if c = '"' then
        match parseStringBody rest with
        | some (body, r) => some (.str (String.mk body), r)
        | none => none
      else if c = '[' then
        match skipWs rest with
        | [] => none
        | c2 :: r2 =>
          if c2 = ']' then some (.arr [], r2)
          else
            match parseElemsTail fuel (c2 :: r2) with
            | some (es, r) => some (.arr es, r)
            | none => none
      else if c = '\x7b' then
        match skipWs rest with
        | [] => none
        | c2 :: r2 =>
          if c2 = '\x7d' then some (.obj [], r2)
          else
            match parseFieldsTail fuel (c2 :: r2) with
            | some (fs, r) => some (.obj fs, r)
            | none => none
      else if c = 'n' then
        match stripLit ['u', 'l', 'l'] rest with
        | some r => some (.null, r)
        | none => none
      else if c = 't' then
        match stripLit ['r', 'u', 'e'] rest with
        | some r => some (.bool true, r)
        | none => none
      else if c = 'f' then
        match stripLit ['a', 'l', 's', 'e'] rest with
        | some r => some (.bool false, r)
        | none => none
      else none
def parseElemsTail : Nat → List Char → Option (List Json × List Char)
  | 0, _ => none
  | fuel + 1, cs =>
    match parseVal fuel cs with
    | none => none
    | some (v, r) =>
      match skipWs r with
      | [] => none
      | c :: r2 =>
        if c = ',' then
          match parseElemsTail fuel r2 with
          | none => none
          | some (vs, r3) => some (v :: vs, r3)
        else if c = ']' then some ([v], r2)
        else none
def parseFieldsTail : Nat → List Char → Option (List (String × Json) × List Char)
  | 0, _ => none
  | fuel + 1, cs =>
    match skipWs cs with
    | [] => none
    | c :: r =>
      if c = '"' then
        match parseStringBody r with
        | none => none
        | some (key, r1) =>
          match skipWs r1 with
          | [] => none
          | c2 :: r2 =>
            if c2 = ':' then
              match parseVal fuel r2 with
              | none => none
              | some (v, r3) =>
                match skipWs r3 with
                | [] => none
                | c3 :: r4 =>
                  if c3 = ',' then
                    match parseFieldsTail fuel r4 with
                    | none => none
                    | some (fs, r5) => some ((String.mk key, v) :: fs, r5)
                  else if c3 = '\x7d' then some ([(String.mk key, v)], r4)
                  else none
            else none
      else none
end

/-- The model of `JSON.parse`: run the value parser with enough fuel for
the whole input, and require that only whitespace remains. -/
def parseJson (s : String) : Option Json :=
  match parseVal (s.length + 1) s.toList with
  | some (v, rest) => if skipWs rest = [] then some v else none
  | none => none

/-! ### Roundtrip: parsing a serialized value recovers it -/

mutual
def jsize : Json → Nat
  | .null => 1
  | .bool _ => 1
  | .num _ => 1
  | .str _ => 1
  | .arr es => 1 + jsizeElems es
  | .obj fs => 1 + jsizeFields fs
def jsizeElems : List Json → Nat
  | [] => 0
  | v :: vs => 1 + jsize v + jsizeElems vs
def jsizeFields : List (String × Json) → Nat
  | [] => 0
  | (_, v) :: fs => 1 + jsize v + jsizeFields fs
end

/-- Contexts a serialized value is followed by: end of input, or a
separator/closer character (never a digit or whitespace). -/
def stopsNum : List Char → Bool
  | [] => true
  | c :: _ => c == ',' || c == ']' || c == '\x7d'

/-! ### Schema translator: tool-call conversion -/

/-- The genai `FunctionCall` as the translator consumes it: an optional
id, a name, and an optional `args` record (`Record<string, unknown>`). -/
structure FunctionCall where
  id : Option String
  name : String
  args : Option (List (String × Json))

/-- Result shape of `convertOpenAIToolCallToGemini`: `args` holds
whatever `JSON.parse` produced, or the empty-object fallback. -/
structure ParsedFunctionCall where
  id : String
  name : String
  args : Json

/-- The `convertGeminiFunctionCallToOpenAI` translator: the id is
`callId || functionCall.id || generateToolCallId()` (JavaScript `||`,
first truthy string wins; the fresh `generateToolCallId()` output is a
parameter because it draws on the clock and randomness), and the
arguments are `JSON.stringify(functionCall.args || \x7b\x7d)`; an args
record is an object and objects are always truthy, so `||` only replaces
an absent record. -/
def convertGeminiFunctionCallToOpenAI (functionCall : FunctionCall)
    (callId : Option String) (freshId : String) : OpenAIToolCall :=
  { id :=
      if truthy callId then callId.getD ""
      else if truthy functionCall.id then functionCall.id.getD ""
      else freshId
  , type := "function"
  , name := functionCall.name
  , arguments := serJson (Json.obj (functionCall.args.getD [])) }

/-- The `convertOpenAIToolCallToGemini` translator: `args` starts as the
empty object and is replaced by `JSON.parse(toolCall.function.arguments)`
unless the parse throws, in which case a warning is logged and the empty
fallback stands. -/
def convertOpenAIToolCallToGemini (toolCall : OpenAIToolCall) : ParsedFunctionCall :=
  { id := toolCall.id
  , name := toolCall.name
  , args :=
      match parseJson toolCall.arguments with
      | some v => v
      | none => Json.obj [] }

/-! ### Theorems -/

/-- C1: for the delta sequence (tool call index 0 id "a" name "f";
arguments fragment; arguments fragment; tool call index 0 id "b" name
"g"; arguments fragment; `[DONE]`), the assembler emits exactly one
terminal batch event holding the two completed calls in order, and no
other event. -/
theorem c1_streaming_reconstruction :
    chatCompletionStream
      [openDelta "a" "f", argsDelta "\x7b\"x\":", argsDelta "1\x7d",
       openDelta "b" "g", argsDelta "\x7b\x7d", StreamLine.done] =
    [StreamEvent.toolCalls
      [⟨"a", "function", "f", "\x7b\"x\":1\x7d"⟩,
       ⟨"b", "function", "g", "\x7b\x7d"⟩]] := by
  decide

/-- The streaming loop factors into the text events of the decoded deltas
in order, followed by the flush of the state reached before the terminal
marker (or transport close). -/
theorem runStream_eq (lines : List StreamLine) : ∀ st : AccState,
    runStream st lines =
      (decodedTexts lines).map StreamEvent.text
        ++ flush (List.foldl stepLine st (preDone lines)) := by
  induction lines with
  | nil => intro st; simp [runStream, decodedTexts, preDone]
  | cons l rest ih =>
    intro st
    cases l with
    | done => simp [runStream, decodedTexts, preDone]
    | chunk d => simp [runStream, decodedTexts, preDone, stepLine, ih, chunkTextEvents]
    | malformed => simp [runStream, decodedTexts, preDone, stepLine, ih]
    | other => simp [runStream, decodedTexts, preDone, stepLine, ih]

theorem flush_cases (st : AccState) :
    flush st = []
      ∨ flush st = [StreamEvent.toolCalls (pushCurrent st.currentToolCall st.toolCallAccumulator)] := by
  by_cases h : pushCurrent st.currentToolCall st.toolCallAccumulator = []
  · left; simp [flush, h]
  · right; simp [flush, h]

/-- C4: within one streaming call the events appear in decode order (the
text events are exactly the decoded content fragments, in order), every
event but possibly the last is a text event, and at most one tool-call
batch event occurs; if it occurs it is the last event. -/
theorem c4_event_ordering (lines : List StreamLine) :
    (chatCompletionStream lines).filterMap textOf = decodedTexts lines
      ∧ ((chatCompletionStream lines).dropLast.all (fun e => !isBatch e)) = true
      ∧ ((chatCompletionStream lines).filter isBatch).length ≤ 1 := by
  have h := runStream_eq lines initAcc
  have htext : (textOf ∘ StreamEvent.text) = Option.some := rfl
  have hbatch : (isBatch ∘ StreamEvent.text) = (fun _ => false) := rfl
  rcases flush_cases (List.foldl stepLine initAcc (preDone lines)) with hf | hf <;>
    rw [hf] at h <;>
    unfold chatCompletionStream <;> rw [h]
  · refine ⟨?_, ?_, ?_⟩
    · rw [List.append_nil, List.filterMap_map, htext, List.filterMap_some]
    · simp only [List.append_nil, List.all_eq_true]
      intro e he
      have hmem := (List.dropLast_sublist ((decodedTexts lines).map StreamEvent.text)).subset he
      obtain ⟨s, _, rfl⟩ := List.mem_map.mp hmem
      rfl
    · rw [List.append_nil, List.filter_map, hbatch]
      simp
  · refine ⟨?_, ?_, ?_⟩
    · rw [List.filterMap_append, List.filterMap_map, htext, List.filterMap_some]
      simp [textOf]
    · rw [List.dropLast_concat]
      simp only [List.all_eq_true]
      intro e he
      obtain ⟨s, _, rfl⟩ := List.mem_map.mp he
      rfl
    · rw [List.filter_append, List.filter_map, hbatch]
      simp [isBatch]

theorem pushCurrent_good (cur : Option OpenAIToolCall) (acc : List OpenAIToolCall)
    (hacc : ∀ c ∈ acc, c.id ≠ "") :
    ∀ c ∈ pushCurrent cur acc, c.id ≠ "" := by
  intro c hc
  cases cur with
  | none => exact hacc c hc
  | some c0 =>
    simp only [pushCurrent] at hc
    by_cases h0 : c0.id = ""
    · rw [if_pos h0] at hc; exact hacc c hc
    · rw [if_neg h0] at hc
      rcases List.mem_append.mp hc with h | h
      · exact hacc c h
      · have : c = c0 := by simpa using h
        subst this
        exact h0

theorem processToolCallDelta_good (st : AccState) (tcd : ToolCallDelta)
    (h : goodState st) : goodState (processToolCallDelta st tcd) := by
  obtain ⟨hcur, hacc⟩ := h
  unfold processToolCallDelta
  by_cases hopen : (tcd.index == some 0 && truthy tcd.id) = true
  · simp only [hopen, if_true]
    have hid : tcd.id.getD "" ≠ "" := by
      have htr : truthy tcd.id = true := (Bool.and_eq_true .. |>.mp hopen).2
      cases htid : tcd.id with
      | none => rw [htid] at htr; simp [truthy] at htr
      | some s =>
        rw [htid] at htr
        simp only [truthy, bne_iff_ne, ne_eq] at htr
        simpa using htr
    refine ⟨?_, ?_⟩
    · intro c hc
      simp only [Option.some.injEq] at hc
      split at hc <;> split at hc <;> rw [← hc] <;> exact hid
    · intro c hc
      simp only [] at hc
      exact pushCurrent_good st.currentToolCall st.toolCallAccumulator hacc c hc
  · rw [if_neg hopen]
    cases hst : st.currentToolCall with
    | none => simpa [hst] using ⟨hcur, hacc⟩
    | some c0 =>
      have hc0 : c0.id ≠ "" := hcur c0 hst
      simp only [hst]
      refine ⟨?_, ?_⟩
      · intro c hc
        simp only [Option.some.injEq] at hc
        split at hc <;> split at hc <;> rw [← hc] <;> exact hc0
      · exact hacc

theorem foldl_processToolCallDelta_good (tcds : List ToolCallDelta) :
    ∀ st : AccState, goodState st → goodState (List.foldl processToolCallDelta st tcds) := by
  induction tcds with
  | nil => intro st h; exact h
  | cons t ts ih => intro st h; exact ih _ (processToolCallDelta_good st t h)

theorem chunkStep_good (st : AccState) (d : Option DeltaObj)
    (h : goodState st) : goodState (chunkStep st d) := by
  cases d with
  | none => exact h
  | some dl =>
    cases hdl : dl.tool_calls with
    | none => simpa [chunkStep, hdl] using h
    | some tcds =>
      simp only [chunkStep, hdl]
      exact foldl_processToolCallDelta_good tcds st h

theorem stepLine_good (st : AccState) (l : StreamLine)
    (h : goodState st) : goodState (stepLine st l) := by
  cases l with
  | chunk d => exact chunkStep_good st d h
  | done => exact h
  | malformed => exact h
  | other => exact h

theorem foldl_stepLine_good (lines : List StreamLine) : ∀ st : AccState,
    goodState st → goodState (List.foldl stepLine st lines) := by
  induction lines with
  | nil => intro st h; exact h
  | cons l rest ih => intro st h; exact ih (stepLine st l) (stepLine_good st l h)

theorem initAcc_good : goodState initAcc := by
  constructor
  · intro c hc; simp [initAcc] at hc
  · intro c hc; simp [initAcc] at hc

theorem preDone_of_not_done (lines : List StreamLine) (h : StreamLine.done ∉ lines) :
    preDone lines = lines := by
  induction lines with
  | nil => rfl
  | cons l rest ih =>
    have hrest : StreamLine.done ∉ rest := fun hm => h (List.mem_cons_of_mem _ hm)
    cases l with
    | done => exact absurd (List.mem_cons_self _ _) h
    | chunk d => simp only [preDone]; rw [ih hrest]
    | malformed => simp only [preDone]; rw [ih hrest]
    | other => simp only [preDone]; rw [ih hrest]

/-- C3: when the transport closes without a `[DONE]` marker while a tool
call is still open, the loop's post-loop closing logic still enqueues the
open call and emits it inside a terminal batch event: an in-flight call
is never silently dropped. -/
theorem c3_transport_close_no_drop (lines : List StreamLine) (c : OpenAIToolCall)
    (hnd : StreamLine.done ∉ lines)
    (hcur : (List.foldl stepLine initAcc lines).currentToolCall = some c) :
    ∃ evs tcs, chatCompletionStream lines = evs ++ [StreamEvent.toolCalls tcs] ∧ c ∈ tcs := by
  have hgood := foldl_stepLine_good lines initAcc initAcc_good
  have hcid : c.id ≠ "" := hgood.1 c hcur
  have h := runStream_eq lines initAcc
  rw [preDone_of_not_done lines hnd] at h
  have hpush : pushCurrent (List.foldl stepLine initAcc lines).currentToolCall
      (List.foldl stepLine initAcc lines).toolCallAccumulator
      = (List.foldl stepLine initAcc lines).toolCallAccumulator ++ [c] := by
    rw [hcur]
    simp [pushCurrent, hcid]
  have hflush : flush (List.foldl stepLine initAcc lines)
      = [StreamEvent.toolCalls ((List.foldl stepLine initAcc lines).toolCallAccumulator ++ [c])] := by
    simp [flush, hpush]
  refine ⟨(decodedTexts lines).map StreamEvent.text,
    (List.foldl stepLine initAcc lines).toolCallAccumulator ++ [c], ?_, ?_⟩
  · unfold chatCompletionStream
    rw [h, hflush]
  · simp

theorem c3_witness :
    ∃ evs tcs, chatCompletionStream [openDelta "a" "tool", argsDelta "x"]
        = evs ++ [StreamEvent.toolCalls tcs]
      ∧ (⟨"a", "function", "tool", "x"⟩ : OpenAIToolCall) ∈ tcs :=
  c3_transport_close_no_drop [openDelta "a" "tool", argsDelta "x"]
    ⟨"a", "function", "tool", "x"⟩ (by decide) (by decide)

theorem runStream_skip_malformed (xs : List StreamLine) :
    ∀ (st : AccState) (ys : List StreamLine),
    runStream st (xs ++ StreamLine.malformed :: ys) = runStream st (xs ++ ys) := by
  induction xs with
  | nil => intro st ys; rfl
  | cons l xs ih =>
    intro st ys
    cases l with
    | done => rfl
    | chunk d =>
      show chunkTextEvents d ++ runStream (chunkStep st d) (xs ++ StreamLine.malformed :: ys)
          = chunkTextEvents d ++ runStream (chunkStep st d) (xs ++ ys)
      rw [ih]
    | malformed => exact ih st ys
    | other => exact ih st ys

/-- C5: a `data: ` line whose payload is not `[DONE]` and fails to parse
is discarded (with a local warning) and the stream continues exactly as
if the line were absent: it neither terminates the sequence nor raises an
error to the consumer. -/
theorem c5_malformed_chunk_skipped (parseChunk : List Char → Option (Option DeltaObj))
    (xs ys : List (List Char)) (line : List Char)
    (hdata : "data: ".toList.isPrefixOf (trimChars line) = true)
    (hnotdone : (trimChars line).drop 6 ≠ "[DONE]".toList)
    (hmal : parseChunk ((trimChars line).drop 6) = none) :
    chatCompletionStreamRaw parseChunk (xs ++ line :: ys)
      = chatCompletionStreamRaw parseChunk (xs ++ ys) := by
  have hcl : classifyLine parseChunk line = StreamLine.malformed := by
    unfold classifyLine
    rw [if_pos hdata, if_neg hnotdone, hmal]
  unfold chatCompletionStreamRaw chatCompletionStream
  rw [List.map_append, List.map_cons, hcl, List.map_append]
  exact runStream_skip_malformed _ _ _

theorem c5_witness :
    chatCompletionStreamRaw (fun _ => none) ([] ++ "data: nope".toList :: ["data: [DONE]".toList])
      = chatCompletionStreamRaw (fun _ => none) ([] ++ ["data: [DONE]".toList]) :=
  c5_malformed_chunk_skipped (fun _ => none) [] ["data: [DONE]".toList] "data: nope".toList
    (by decide) (by decide) rfl

/-- C10: a tool-call delta with index 0 but no truthy id never opens a
new call and never closes the open one: its fragments are appended to the
open call when one exists and dropped otherwise; and every tool call in
an emitted batch has a non-empty id. -/
theorem c10_no_id_no_open :
    (∀ (st : AccState) (tcd : ToolCallDelta), tcd.index = some 0 → truthy tcd.id = false →
        (processToolCallDelta st tcd).toolCallAccumulator = st.toolCallAccumulator
          ∧ (st.currentToolCall = none → (processToolCallDelta st tcd).currentToolCall = none)
          ∧ (∀ c, st.currentToolCall = some c →
              (processToolCallDelta st tcd).currentToolCall = some (appendFragments c tcd)))
      ∧ (∀ (lines : List StreamLine) (tcs : List OpenAIToolCall) (tc : OpenAIToolCall),
          StreamEvent.toolCalls tcs ∈ chatCompletionStream lines → tc ∈ tcs → tc.id ≠ "") := by
  constructor
  · intro st tcd _ hid
    have hguard : (tcd.index == some 0 && truthy tcd.id) = false := by
      rw [hid, Bool.and_false]
    unfold processToolCallDelta
    rw [hguard]
    simp only [Bool.false_eq_true, if_false]
    cases hst : st.currentToolCall with
    | none => simp [hst]
    | some c => simp [hst, appendFragments]
  · intro lines tcs tc hev htc
    have h := runStream_eq lines initAcc
    have hgood := foldl_stepLine_good (preDone lines) initAcc initAcc_good
    unfold chatCompletionStream at hev
    rw [h] at hev
    rcases List.mem_append.mp hev with hev | hev
    · obtain ⟨s, _, habs⟩ := List.mem_map.mp hev
      exact absurd habs (by simp)
    · rcases flush_cases (List.foldl stepLine initAcc (preDone lines)) with hf | hf <;> rw [hf] at hev
      · simp at hev
      · have : tcs = pushCurrent (List.foldl stepLine initAcc (preDone lines)).currentToolCall
            (List.foldl stepLine initAcc (preDone lines)).toolCallAccumulator := by
          simpa using hev
        subst this
        exact pushCurrent_good _ _ hgood.2 tc htc

theorem c10_witness :
    (processToolCallDelta initAcc ⟨some 0, none, some "f", some "x"⟩).toolCallAccumulator
      = ([] : List OpenAIToolCall) :=
  (c10_no_id_no_open.1 initAcc ⟨some 0, none, some "f", some "x"⟩ rfl rfl).1

theorem splitOnChar_ne_nil (sep : Char) (cs : List Char) : splitOnChar sep cs ≠ [] := by
  induction cs with
  | nil => simp [splitOnChar]
  | cons c cs ih =>
    by_cases h : c = sep
    · simp [splitOnChar, h]
    · simp only [splitOnChar, if_neg h]
      cases hs : splitOnChar sep cs with
      | nil => simp
      | cons r rs => simp

theorem splitOnChar_not_mem (sep : Char) (cs : List Char) :
    ∀ part ∈ splitOnChar sep cs, sep ∉ part := by
  induction cs with
  | nil =>
    intro part hp
    simp only [splitOnChar, List.mem_singleton] at hp
    subst hp
    simp
  | cons c cs ih =>
    intro part hp
    by_cases h : c = sep
    · rw [splitOnChar, if_pos h] at hp
      rcases List.mem_cons.mp hp with hp | hp
      · subst hp; simp
      · exact ih part hp
    · rw [splitOnChar, if_neg h] at hp
      cases hs : splitOnChar sep cs with
      | nil => exact absurd hs (splitOnChar_ne_nil sep cs)
      | cons r rs =>
        rw [hs] at hp
        rcases List.mem_cons.mp hp with hp | hp
        · subst hp
          intro hmem
          rcases List.mem_cons.mp hmem with hmem | hmem
          · exact h hmem.symm
          · exact ih r (hs ▸ List.mem_cons_self r rs) hmem
        · exact ih part (hs ▸ List.mem_cons_of_mem r hp)

/-- C6: a models-list response with zero entries in both recognized
shapes makes `initialize()` fail with the discovery error, and the
client's model fields remain as the constructor left them. -/
theorem c6_zero_models_discovery_error (st : ClientState) (r : LlamaCppModelsResponse)
    (hm : r.models = none ∨ r.models = some [])
    (hd : r.data = none ∨ r.data = some []) :
    initModel r = InitResult.discoveryError ∧ applyInitResult st r = (st, false) := by
  have hi : initModel r = InitResult.discoveryError := by
    rcases hm with hm | hm <;> rcases hd with hd | hd <;> simp [initModel, hm, hd]
  exact ⟨hi, by simp [applyInitResult, hi]⟩

theorem c6_witness :
    initModel { models := none, data := none } = InitResult.discoveryError
      ∧ applyInitResult newClientState { models := none, data := none }
          = (newClientState, false) :=
  c6_zero_models_discovery_error newClientState
    { models := none, data := none } (Or.inl rfl) (Or.inl rfl)

theorem stripGgufOnce_append (m : List Char) : stripGgufOnce (m ++ ggufSuffix) = m := by
  unfold stripGgufOnce
  rw [if_pos ⟨m, rfl⟩]
  have hl : (m ++ ggufSuffix).length - 5 = m.length := by simp [ggufSuffix]
  rw [hl, List.take_left]

theorem stripGgufOnce_no_gguf (l : List Char)
    (h : ¬ (ggufSuffix ++ ggufSuffix) <:+ l) :
    ¬ ggufSuffix <:+ stripGgufOnce l := by
  by_cases hg : ggufSuffix <:+ l
  · obtain ⟨m, hm⟩ := hg
    rw [← hm, stripGgufOnce_append]
    intro hc
    obtain ⟨m2, hm2⟩ := hc
    exact h ⟨m2, by rw [← List.append_assoc, hm2, hm]⟩
  · rw [stripGgufOnce, if_neg hg]
    exact hg

theorem getLastD_cons_mem {α : Type _} (a : α) (l : List α) :
    ∀ d, (a :: l).getLastD d ∈ a :: l := by
  induction l generalizing a with
  | nil => intro d; simp [List.getLastD]
  | cons b bs ih =>
    intro d
    rw [List.getLastD_cons]
    exact List.mem_cons_of_mem a (ih b a)

theorem extractModelName_eq (s : String) :
    extractModelName s
      = String.mk (stripGgufOnce ((splitOnChar '/' s.toList).getLastD [])) := by
  simp [extractModelName]

theorem stripGgufOnce_subset (l : List Char) : stripGgufOnce l ⊆ l := by
  unfold stripGgufOnce
  split
  · exact List.take_subset _ _
  · exact fun a ha => ha

theorem extractModelName_no_slash (s : String) : '/' ∉ (extractModelName s).toList := by
  rw [extractModelName_eq]
  show '/' ∉ stripGgufOnce ((splitOnChar '/' s.toList).getLastD [])
  intro hmem
  have hmem2 := stripGgufOnce_subset _ hmem
  cases hp : splitOnChar '/' s.toList with
  | nil => exact splitOnChar_ne_nil '/' s.toList hp
  | cons p ps =>
    rw [hp] at hmem2
    exact splitOnChar_not_mem '/' s.toList ((p :: ps).getLastD [])
      (hp ▸ getLastD_cons_mem p ps []) hmem2

theorem extractModelName_gguf (s : String)
    (h : ¬ (ggufSuffix ++ ggufSuffix) <:+ ((splitOnChar '/' s.toList).getLastD [])) :
    ¬ ggufSuffix <:+ (extractModelName s).toList := by
  rw [extractModelName_eq]
  exact stripGgufOnce_no_gguf _ h

/-- C7 (amended): a models-list response with at least one entry in
either shape makes `initialize()` succeed, selecting element 0 and
preferring the `models` shape; the derived display name contains no `/`
path separator, and — unless the filename component ends in a doubled
`.gguf.gguf` — does not end with the `.gguf` extension (exactly one
trailing `.gguf` is stripped). -/
theorem c7_discovery_success (r : LlamaCppModelsResponse) :
    (∀ m ms, r.models = some (m :: ms) →
        initModel r = InitResult.ok m.name (extractModelName m.name))
      ∧ ((r.models = none ∨ r.models = some []) → ∀ d ds, r.data = some (d :: ds) →
          initModel r = InitResult.ok d.id (extractModelName d.id))
      ∧ (∀ s : String, '/' ∉ (extractModelName s).toList)
      ∧ (∀ s : String,
          ¬ (ggufSuffix ++ ggufSuffix) <:+ ((splitOnChar '/' s.toList).getLastD []) →
          ¬ ggufSuffix <:+ (extractModelName s).toList) := by
  refine ⟨?_, ?_, extractModelName_no_slash, extractModelName_gguf⟩
  · intro m ms hm
    simp [initModel, hm]
  · intro hm d ds hd
    rcases hm with hm | hm <;> simp [initModel, hm, hd]

/-- C7 counterexample: for the raw identifier `model.gguf.gguf` the
derived display name is `model.gguf`, which still ends with the
file-extension suffix, because the code strips only one trailing
occurrence. -/
theorem c7_counterexample :
    initModel { models := some [{ name := "model.gguf.gguf" }], data := none }
      = InitResult.ok "model.gguf.gguf" "model.gguf"
    ∧ ggufSuffix <:+ "model.gguf".toList := by
  constructor
  · decide
  · exact ⟨"model".toList, by decide⟩

theorem c7_witness :
    initModel { models := some [{ name := "/models/gemma-3.gguf" }], data := none }
      = InitResult.ok "/models/gemma-3.gguf" (extractModelName "/models/gemma-3.gguf")
    ∧ '/' ∉ (extractModelName "/models/gemma-3.gguf").toList
    ∧ ¬ ggufSuffix <:+ (extractModelName "/models/gemma-3.gguf").toList :=
  ⟨(c7_discovery_success { models := some [{ name := "/models/gemma-3.gguf" }], data := none }).1 _ _ rfl,
   (c7_discovery_success { models := some [{ name := "/models/gemma-3.gguf" }], data := none }).2.2.1 _,
   (c7_discovery_success { models := some [{ name := "/models/gemma-3.gguf" }], data := none }).2.2.2 _ (by decide)⟩

theorem countTokens_foldl_length (items : List ContentItem) : ∀ init : String,
    (items.foldl (fun acc c => acc ++ itemText c ++ " ") init).length
      = init.length + (items.map fun c => (itemText c).length).sum + items.length := by
  induction items with
  | nil => intro init; simp
  | cons c cs ih =>
    intro init
    rw [List.foldl_cons, ih]
    have h1 : (" " : String).length = 1 := rfl
    simp [String.length_append, h1]
    omega

/-- C9 (amended): the token estimate is the ceiling of `L / 4` where `L`
is the total textual content length plus one separator space per content
item (parts of one `Content` being joined with single spaces), not the
bare total character count. -/
theorem c9_token_estimate (contents : ContentListUnion) :
    countTokens contents
      = (((normalizeContents contents).map fun c => (itemText c).length).sum
          + (normalizeContents contents).length + 3) / 4 := by
  show ((List.foldl (fun acc c => acc ++ itemText c ++ " ") ""
      (normalizeContents contents)).length + 3) / 4 = _
  rw [countTokens_foldl_length]
  simp

/-- C9 counterexample: for the single string content `abcd` the code
returns `ceil(5 / 4) = 2` (the appended separator space is counted),
while the ceiling of the bare character count is `ceil(4 / 4) = 1`. -/
theorem c9_counterexample :
    countTokens (.many [.strContent "abcd"]) = 2
      ∧ (("abcd" : String).length + 3) / 4 = 1 := by
  constructor
  · rfl
  · rfl

theorem natDigitsAux_eq (fuel : Nat) : ∀ n : Nat, n ≤ fuel → natDigitsAux fuel n = Nat.digits 10 n := by
  induction fuel with
  | zero =>
    intro n hn
    interval_cases n
    simp [natDigitsAux]
  | succ fuel ih =>
    intro n hn
    cases n with
    | zero => simp [natDigitsAux]
    | succ m =>
      rw [natDigitsAux, Nat.digits_def' (by norm_num : (1 : ℕ) < 10) (Nat.succ_pos m)]
      rw [ih ((m + 1) / 10) (by omega)]

theorem isDigit_ne {c : Char} (h : c.isDigit = true) (c0 : Char) (h0 : c0.isDigit = false) :
    c ≠ c0 := by
  intro he
  subst he
  rw [h] at h0
  exact absurd h0 (by decide)

theorem isDigit_not_ws {c : Char} (h : c.isDigit = true) : isWsChar c = false := by
  unfold isWsChar
  rw [beq_eq_false_iff_ne.mpr (isDigit_ne h ' ' (by decide)),
      beq_eq_false_iff_ne.mpr (isDigit_ne h '\r' (by decide)),
      beq_eq_false_iff_ne.mpr (isDigit_ne h '\n' (by decide)),
      beq_eq_false_iff_ne.mpr (isDigit_ne h '\t' (by decide))]
  rfl

theorem stopsNum_head_not_digit {c : Char} {t : List Char} (h : stopsNum (c :: t) = true) :
    c.isDigit = false := by
  simp only [stopsNum, Bool.or_eq_true, beq_iff_eq] at h
  rcases h with (h | h) | h <;> subst h <;> decide

theorem skipWs_cons_of_not_ws {c : Char} (cs : List Char) (h : isWsChar c = false) :
    skipWs (c :: cs) = c :: cs := by
  simp [skipWs, h]

theorem digitChar_spec {d : Nat} (h : d < 10) :
    (Nat.digitChar d).isDigit = true ∧ digitVal (Nat.digitChar d) = d := by
  interval_cases d <;> exact ⟨by decide, by decide⟩

theorem parseStringBody_escList (cs : List Char) : ∀ t : List Char,
    parseStringBody (escList cs ++ '"' :: t) = some (cs, t) := by
  induction cs with
  | nil =>
    intro t
    show parseStringBody ('"' :: t) = some ([], t)
    rw [parseStringBody.eq_def]
    simp
  | cons c cs ih =>
    intro t
    show parseStringBody ((escChar c ++ escList cs) ++ '"' :: t) = _
    rw [List.append_assoc]
    unfold escChar
    split_ifs with h1 h2 h3 h4 h5 h6 h7
    · subst h1; rw [parseStringBody.eq_def]; simp [unescapeChar, ih t]
    · subst h2; rw [parseStringBody.eq_def]; simp [unescapeChar, ih t]
    · subst h3; rw [parseStringBody.eq_def]; simp [unescapeChar, ih t]
    · subst h4; rw [parseStringBody.eq_def]; simp [unescapeChar, ih t]
    · subst h5; rw [parseStringBody.eq_def]; simp [unescapeChar, ih t]
    · subst h6; rw [parseStringBody.eq_def]; simp [unescapeChar, ih t]
    · subst h7; rw [parseStringBody.eq_def]; simp [unescapeChar, ih t]
    · show parseStringBody (c :: (escList cs ++ '"' :: t)) = _
      rw [parseStringBody.eq_def]
      simp [h1, h2, ih t]

theorem takeDigits_append (ds : List Char) : ∀ (acc : Nat) (t : List Char),
    (∀ c ∈ ds, c.isDigit = true) → stopsNum t = true →
    takeDigits acc (ds ++ t) = (ds.foldl (fun a c => a * 10 + digitVal c) acc, t) := by
  induction ds with
  | nil =>
    intro acc t _ ht
    cases t with
    | nil => simp [takeDigits]
    | cons c t' =>
      have hcd : c.isDigit = false := stopsNum_head_not_digit ht
      simp [takeDigits, hcd]
  | cons d ds ih =>
    intro acc t hds ht
    have hd : d.isDigit = true := hds d (List.mem_cons_self d ds)
    rw [List.cons_append, takeDigits, if_pos hd, List.foldl_cons]
    exact ih _ t (fun c hc => hds c (List.mem_cons_of_mem _ hc)) ht

theorem foldr_digits_ofDigits (L : List Nat) : (∀ d ∈ L, d < 10) →
    L.foldr (fun d a => a * 10 + digitVal (Nat.digitChar d)) 0 = Nat.ofDigits 10 L := by
  induction L with
  | nil => intro _; simp [Nat.ofDigits]
  | cons d L ih =>
    intro h
    have hd := h d (List.mem_cons_self d L)
    rw [List.foldr_cons, ih (fun x hx => h x (List.mem_cons_of_mem _ hx)), Nat.ofDigits_cons,
        (digitChar_spec hd).2]
    ring

theorem serNatChars_ne_nil (n : Nat) : serNatChars n ≠ [] := by
  unfold serNatChars
  split
  · simp
  · rename_i h0
    rw [natDigitsAux_eq n n (Nat.le_refl n)]
    simp [Nat.digits_ne_nil_iff_ne_zero.mpr h0]

theorem serNatChars_digits (n : Nat) : ∀ c ∈ serNatChars n, c.isDigit = true := by
  intro c hc
  unfold serNatChars at hc
  split at hc
  · simp only [List.mem_singleton] at hc
    subst hc
    decide
  · rw [natDigitsAux_eq n n (Nat.le_refl n), List.mem_reverse] at hc
    obtain ⟨d, hd, rfl⟩ := List.mem_map.mp hc
    exact (digitChar_spec (Nat.digits_lt_base (by norm_num) hd)).1

theorem foldl_serNatChars (n : Nat) :
    (serNatChars n).foldl (fun a c => a * 10 + digitVal c) 0 = n := by
  unfold serNatChars
  split
  · rename_i h0
    subst h0
    decide
  · rw [natDigitsAux_eq n n (Nat.le_refl n), List.foldl_reverse, List.foldr_map]
    exact (foldr_digits_ofDigits _ (fun d hd => Nat.digits_lt_base (by norm_num) hd)).trans
      (Nat.ofDigits_digits 10 n)

theorem parseNat_serNat (n : Nat) (t : List Char) (ht : stopsNum t = true) :
    parseNat (serNatChars n ++ t) = some (n, t) := by
  cases hsn : serNatChars n with
  | nil => exact absurd hsn (serNatChars_ne_nil n)
  | cons c cs =>
    have hdigs : ∀ ch ∈ c :: cs, ch.isDigit = true := hsn ▸ serNatChars_digits n
    have hc : c.isDigit = true := hdigs c (List.mem_cons_self c cs)
    rw [List.cons_append, parseNat.eq_def]
    simp only [hc, if_true]
    rw [takeDigits_append cs (digitVal c) t (fun ch hch => hdigs ch (List.mem_cons_of_mem _ hch)) ht]
    have hfold : cs.foldl (fun a ch => a * 10 + digitVal ch) (digitVal c) = n := by
      have := foldl_serNatChars n
      rw [hsn, List.foldl_cons] at this
      simpa using this
    rw [hfold]

theorem mkToList (s : String) : String.mk s.toList = s := rfl

theorem toListMk (l : List Char) : (String.mk l).toList = l := rfl

theorem lengthMk (l : List Char) : (String.mk l).length = l.length := rfl

theorem jsize_pos (v : Json) : 1 ≤ jsize v := by
  cases v <;> simp [jsize]

theorem serJsonChars_head (v : Json) :
    ∃ c cs, serJsonChars v = c :: cs ∧ isWsChar c = false ∧ c ≠ ']' ∧ c ≠ '\x7d' := by
  cases v with
  | null => exact ⟨'n', ['u', 'l', 'l'], by decide, by decide, by decide, by decide⟩
  | bool b =>
    cases b with
    | true => exact ⟨'t', ['r', 'u', 'e'], by decide, by decide, by decide, by decide⟩
    | false => exact ⟨'f', ['a', 'l', 's', 'e'], by decide, by decide, by decide, by decide⟩
  | num i =>
    have hser : serJsonChars (Json.num i) = serIntChars i := by simp [serJsonChars]
    rw [hser]
    unfold serIntChars
    split
    · exact ⟨'-', serNatChars i.natAbs, rfl, by decide, by decide, by decide⟩
    · cases hsn : serNatChars i.natAbs with
      | nil => exact absurd hsn (serNatChars_ne_nil _)
      | cons c cs =>
        have hc : c.isDigit = true :=
          serNatChars_digits _ c (by rw [hsn]; exact List.mem_cons_self c cs)
        exact ⟨c, cs, rfl, isDigit_not_ws hc, isDigit_ne hc ']' (by decide),
          isDigit_ne hc '\x7d' (by decide)⟩
  | str s =>
    exact ⟨'"', escList s.toList ++ ['"'], by simp [serJsonChars, serStringChars],
      by decide, by decide, by decide⟩
  | arr es => exact ⟨'[', serElems es, by simp [serJsonChars], by decide, by decide, by decide⟩
  | obj fs => exact ⟨'\x7b', serFields fs, by simp [serJsonChars], by decide, by decide, by decide⟩

theorem parseVal_nullCase (f : Nat) (t : List Char) :
    parseVal (f + 1) (['n', 'u', 'l', 'l'] ++ t) = some (Json.null, t) := by
  rw [parseVal.eq_def]
  rfl

theorem parseVal_trueCase (f : Nat) (t : List Char) :
    parseVal (f + 1) (['t', 'r', 'u', 'e'] ++ t) = some (Json.bool true, t) := by
  rw [parseVal.eq_def]
  rfl

theorem parseVal_falseCase (f : Nat) (t : List Char) :
    parseVal (f + 1) (['f', 'a', 'l', 's', 'e'] ++ t) = some (Json.bool false, t) := by
  rw [parseVal.eq_def]
  rfl

theorem parseVal_quote (f : Nat) (rest : List Char) :
    parseVal (f + 1) ('"' :: rest)
      = (match parseStringBody rest with
        | some (body, r) => some (.str (String.mk body), r)
        | none => none) := by
  rw [parseVal.eq_def]
  rfl

theorem parseVal_digitHead (f : Nat) (c : Char) (rest : List Char) (hc : c.isDigit = true) :
    parseVal (f + 1) (c :: rest)
      = (match parseNat (c :: rest) with
        | some (n, r) => some (.num (Int.ofNat n), r)
        | none => none) := by
  rw [parseVal.eq_def]
  dsimp only
  rw [skipWs_cons_of_not_ws rest (isDigit_not_ws hc)]
  dsimp only
  rw [if_pos hc]

theorem parseVal_negHead (f : Nat) (rest : List Char) :
    parseVal (f + 1) ('-' :: rest)
      = (match parseNat rest with
        | some (n, r) => some (.num (-(Int.ofNat n)), r)
        | none => none) := by
  rw [parseVal.eq_def]
  rfl

theorem parseVal_arrNil (f : Nat) (t : List Char) :
    parseVal (f + 1) ('[' :: (']' :: t)) = some (Json.arr [], t) := by
  rw [parseVal.eq_def]
  rfl

theorem parseVal_arrHead (f : Nat) (c : Char) (rest2 : List Char)
    (hws : isWsChar c = false) (hne : c ≠ ']') :
    parseVal (f + 1) ('[' :: (c :: rest2))
      = (match parseElemsTail f (c :: rest2) with
        | some (es, r) => some (.arr es, r)
        | none => none) := by
  rw [parseVal.eq_def]
  show (match skipWs (c :: rest2) with
    | [] => none
    | c2 :: r2 =>
      if c2 = ']' then some (Json.arr [], r2)
      else
        match parseElemsTail f (c2 :: r2) with
        | some (es, r) => some (Json.arr es, r)
        | none => none) = _
  rw [skipWs_cons_of_not_ws rest2 hws]
  dsimp only
  rw [if_neg hne]

theorem parseVal_objNil (f : Nat) (t : List Char) :
    parseVal (f + 1) ('\x7b' :: ('\x7d' :: t)) = some (Json.obj [], t) := by
  rw [parseVal.eq_def]
  rfl

theorem parseVal_objQuote (f : Nat) (rest2 : List Char) :
    parseVal (f + 1) ('\x7b' :: ('"' :: rest2))
      = (match parseFieldsTail f ('"' :: rest2) with
        | some (fs, r) => some (.obj fs, r)
        | none => none) := by
  rw [parseVal.eq_def]
  rfl

theorem parseElemsTail_step (f : Nat) (cs : List Char) :
    parseElemsTail (f + 1) cs
      = (match parseVal f cs with
        | none => none
        | some (v, r) =>
          match skipWs r with
          | [] => none
          | c :: r2 =>
            if c = ',' then
              match parseElemsTail f r2 with
              | none => none
              | some (vs, r3) => some (v :: vs, r3)
            else if c = ']' then some ([v], r2)
            else none) := by
  rw [parseElemsTail.eq_def]

theorem parseFieldsTail_step (f : Nat) (cs : List Char) :
    parseFieldsTail (f + 1) cs
      = (match skipWs cs with
        | [] => none
        | c :: r =>
          if c = '"' then
            match parseStringBody r with
            | none => none
            | some (key, r1) =>
              match skipWs r1 with
              | [] => none
              | c2 :: r2 =>
                if c2 = ':' then
                  match parseVal f r2 with
                  | none => none
                  | some (v, r3) =>
                    match skipWs r3 with
                    | [] => none
                    | c3 :: r4 =>
                      if c3 = ',' then
                        match parseFieldsTail f r4 with
                        | none => none
                        | some (fs, r5) => some ((String.mk key, v) :: fs, r5)
                      else if c3 = '\x7d' then some ([(String.mk key, v)], r4)
                      else none
                else none
          else none) := by
  rw [parseFieldsTail.eq_def]

theorem parse_ser_fuel : ∀ fuel : Nat,
    (∀ (v : Json) (t : List Char), jsize v ≤ fuel → stopsNum t = true →
        parseVal fuel (serJsonChars v ++ t) = some (v, t))
    ∧ (∀ (vs : List Json) (t : List Char), vs ≠ [] → jsizeElems vs ≤ fuel → stopsNum t = true →
        parseElemsTail fuel (serElems vs ++ t) = some (vs, t))
    ∧ (∀ (fs : List (String × Json)) (t : List Char), fs ≠ [] → jsizeFields fs ≤ fuel →
        stopsNum t = true →
        parseFieldsTail fuel (serFields fs ++ t) = some (fs, t)) := by
  intro fuel
  induction fuel with
  | zero =>
    refine ⟨?_, ?_, ?_⟩
    · intro v t hf _
      exact absurd hf (by have := jsize_pos v; omega)
    · intro vs t hne hf _
      cases vs with
      | nil => exact absurd rfl hne
      | cons v vs' => simp [jsizeElems] at hf
    · intro fs t hne hf _
      cases fs with
      | nil => exact absurd rfl hne
      | cons kv fs' =>
        obtain ⟨k, v⟩ := kv
        simp [jsizeFields] at hf
  | succ f ih =>
    obtain ⟨ihV, ihE, ihF⟩ := ih
    refine ⟨?_, ?_, ?_⟩
    · intro v t hf ht
      cases v with
      | null =>
        have hser : serJsonChars Json.null = ['n', 'u', 'l', 'l'] := by decide
        rw [hser, parseVal_nullCase]
      | bool b =>
        cases b with
        | true =>
          have hser : serJsonChars (Json.bool true) = ['t', 'r', 'u', 'e'] := by decide
          rw [hser, parseVal_trueCase]
        | false =>
          have hser : serJsonChars (Json.bool false) = ['f', 'a', 'l', 's', 'e'] := by decide
          rw [hser, parseVal_falseCase]
      | num i =>
        have hser : serJsonChars (Json.num i) = serIntChars i := by simp [serJsonChars]
        rw [hser]
        unfold serIntChars
        by_cases hi : i < 0
        · rw [if_pos hi, List.cons_append, parseVal_negHead, parseNat_serNat i.natAbs t ht]
          dsimp only
          have hiv : -(Int.ofNat i.natAbs) = i := by
            have h0 : Int.ofNat i.natAbs = (i.natAbs : Int) := rfl
            rw [h0]
            omega
          rw [hiv]
        · rw [if_neg hi]
          cases hsn : serNatChars i.natAbs with
          | nil => exact absurd hsn (serNatChars_ne_nil _)
          | cons c cs =>
            have hc : c.isDigit = true :=
              serNatChars_digits _ c (by rw [hsn]; exact List.mem_cons_self c cs)
            have hpn : parseNat (c :: (cs ++ t)) = some (i.natAbs, t) := by
              rw [← List.cons_append, ← hsn]
              exact parseNat_serNat i.natAbs t ht
            rw [List.cons_append, parseVal_digitHead f c (cs ++ t) hc, hpn]
            dsimp only
            have hiv : Int.ofNat i.natAbs = i := by
              have h0 : Int.ofNat i.natAbs = (i.natAbs : Int) := rfl
              rw [h0]
              omega
            rw [hiv]
      | str s =>
        have hser : serJsonChars (Json.str s) = '"' :: (escList s.toList ++ ['"']) := by
          simp [serJsonChars, serStringChars]
        rw [hser, List.cons_append, parseVal_quote]
        have hps : parseStringBody ((escList s.toList ++ ['"']) ++ t) = some (s.toList, t) := by
          rw [List.append_assoc, List.singleton_append]
          exact parseStringBody_escList s.toList t
        rw [hps]
        dsimp only
        rw [mkToList]
      | arr es =>
        have hser : serJsonChars (Json.arr es) = '[' :: serElems es := by simp [serJsonChars]
        rw [hser]
        cases es with
        | nil =>
          have h1 : serElems ([] : List Json) = [']'] := by simp [serElems]
          rw [h1, List.cons_append, List.cons_append, List.nil_append, parseVal_arrNil]
        | cons e es' =>
          obtain ⟨c, cs, hheade, hws, hne1, hne2⟩ := serJsonChars_head e
          have hpe : parseElemsTail f (serElems (e :: es') ++ t) = some (e :: es', t) :=
            ihE (e :: es') t (by simp) (by simp only [jsize] at hf; omega) ht
          have hrest : ∃ rest, serElems (e :: es') = c :: rest := by
            cases es' with
            | nil => exact ⟨cs ++ [']'], by simp [serElems, hheade]⟩
            | cons e2 es'' => exact ⟨cs ++ ',' :: serElems (e2 :: es''), by simp [serElems, hheade]⟩
          obtain ⟨rest, hrest⟩ := hrest
          rw [hrest] at hpe ⊢
          rw [List.cons_append] at hpe ⊢
          rw [List.cons_append, parseVal_arrHead f c (rest ++ t) hws hne1, hpe]
      | obj fs =>
        have hser : serJsonChars (Json.obj fs) = '\x7b' :: serFields fs := by simp [serJsonChars]
        rw [hser]
        cases fs with
        | nil =>
          have h1 : serFields ([] : List (String × Json)) = ['\x7d'] := by simp [serFields]
          rw [h1, List.cons_append, List.cons_append, List.nil_append, parseVal_objNil]
        | cons kv fs' =>
          obtain ⟨k, v⟩ := kv
          have hpf : parseFieldsTail f (serFields ((k, v) :: fs') ++ t) = some ((k, v) :: fs', t) :=
            ihF ((k, v) :: fs') t (by simp) (by simp only [jsize] at hf; omega) ht
          have hrest : ∃ rest, serFields ((k, v) :: fs') = '"' :: rest := by
            cases fs' with
            | nil =>
              exact ⟨(escList k.toList ++ ['"']) ++ ':' :: (serJsonChars v ++ ['\x7d']),
                by simp [serFields, serStringChars]⟩
            | cons kv2 fs'' =>
              exact ⟨(escList k.toList ++ ['"'])
                  ++ ':' :: (serJsonChars v ++ ',' :: serFields (kv2 :: fs'')),
                by simp [serFields, serStringChars]⟩
          obtain ⟨rest, hrest⟩ := hrest
          rw [hrest] at hpf ⊢
          rw [List.cons_append] at hpf ⊢
          rw [List.cons_append, parseVal_objQuote f (rest ++ t), hpf]
    · intro vs t hne hf ht
      cases vs with
      | nil => exact absurd rfl hne
      | cons v vs' =>
        cases vs' with
        | nil =>
          have h1 : serElems [v] ++ t = serJsonChars v ++ (']' :: t) := by simp [serElems]
          have hpv : parseVal f (serJsonChars v ++ (']' :: t)) = some (v, ']' :: t) :=
            ihV v (']' :: t) (by simp only [jsizeElems] at hf; omega) rfl
          rw [h1, parseElemsTail_step, hpv]
          rfl
        | cons v2 vs'' =>
          have h1 : serElems (v :: v2 :: vs'') ++ t
              = serJsonChars v ++ (',' :: (serElems (v2 :: vs'') ++ t)) := by
            simp [serElems]
          have hpv : parseVal f (serJsonChars v ++ (',' :: (serElems (v2 :: vs'') ++ t)))
              = some (v, ',' :: (serElems (v2 :: vs'') ++ t)) :=
            ihV v _ (by simp only [jsizeElems] at hf; omega) rfl
          have hpe : parseElemsTail f (serElems (v2 :: vs'') ++ t) = some (v2 :: vs'', t) :=
            ihE (v2 :: vs'') t (by simp) (by simp only [jsizeElems] at hf ⊢; omega) ht
          rw [h1, parseElemsTail_step, hpv]
          dsimp only
          rw [skipWs_cons_of_not_ws (serElems (v2 :: vs'') ++ t) (by decide)]
          dsimp only
          rw [if_pos rfl, hpe]
    · intro fs t hne hf ht
      cases fs with
      | nil => exact absurd rfl hne
      | cons kv fs' =>
        obtain ⟨k, v⟩ := kv
        cases fs' with
        | nil =>
          have h1 : serFields [(k, v)] ++ t
              = '"' :: ((escList k.toList ++ ['"']) ++ (':' :: (serJsonChars v ++ ('\x7d' :: t)))) := by
            simp [serFields, serStringChars]
          have hs : parseStringBody
              ((escList k.toList ++ ['"']) ++ (':' :: (serJsonChars v ++ ('\x7d' :: t))))
              = some (k.toList, ':' :: (serJsonChars v ++ ('\x7d' :: t))) := by
            rw [List.append_assoc, List.singleton_append]
            exact parseStringBody_escList k.toList _
          have hpv : parseVal f (serJsonChars v ++ ('\x7d' :: t)) = some (v, '\x7d' :: t) :=
            ihV v _ (by simp only [jsizeFields] at hf; omega) rfl
          rw [h1, parseFieldsTail_step]
          rw [skipWs_cons_of_not_ws _ (by decide)]
          dsimp only
          rw [if_pos rfl, hs]
          dsimp only
          rw [skipWs_cons_of_not_ws _ (by decide)]
          dsimp only
          rw [if_pos rfl, hpv]
          dsimp only
          rw [skipWs_cons_of_not_ws _ (by decide)]
          dsimp only
          rw [if_neg (by decide : ¬('\x7d' : Char) = ','), if_pos rfl, mkToList]
        | cons kv2 fs'' =>
          have h1 : serFields ((k, v) :: kv2 :: fs'') ++ t
              = '"' :: ((escList k.toList ++ ['"'])
                  ++ (':' :: (serJsonChars v ++ (',' :: (serFields (kv2 :: fs'') ++ t))))) := by
            simp [serFields, serStringChars]
          have hs : parseStringBody
              ((escList k.toList ++ ['"'])
                ++ (':' :: (serJsonChars v ++ (',' :: (serFields (kv2 :: fs'') ++ t)))))
              = some (k.toList, ':' :: (serJsonChars v ++ (',' :: (serFields (kv2 :: fs'') ++ t)))) := by
            rw [List.append_assoc, List.singleton_append]
            exact parseStringBody_escList k.toList _
          have hpv : parseVal f (serJsonChars v ++ (',' :: (serFields (kv2 :: fs'') ++ t)))
              = some (v, ',' :: (serFields (kv2 :: fs'') ++ t)) :=
            ihV v _ (by simp only [jsizeFields] at hf; omega) rfl
          have hpf : parseFieldsTail f (serFields (kv2 :: fs'') ++ t) = some (kv2 :: fs'', t) :=
            ihF (kv2 :: fs'') t (by simp) (by simp only [jsizeFields] at hf ⊢; omega) ht
          rw [h1, parseFieldsTail_step]
          rw [skipWs_cons_of_not_ws _ (by decide)]
          dsimp only
          rw [if_pos rfl, hs]
          dsimp only
          rw [skipWs_cons_of_not_ws _ (by decide)]
          dsimp only
          rw [if_pos rfl, hpv]
          dsimp only
          rw [skipWs_cons_of_not_ws _ (by decide)]
          dsimp only
          rw [if_pos rfl, hpf]
          dsimp only
          rw [mkToList]

mutual
theorem jsize_le_serLen : ∀ v : Json, jsize v ≤ (serJsonChars v).length
  | .null => by simp only [jsize, serJsonChars]; decide
  | .bool true => by simp only [jsize, serJsonChars]; decide
  | .bool false => by simp only [jsize, serJsonChars]; decide
  | .num i => by
    have h := serNatChars_ne_nil i.natAbs
    have hlen : 1 ≤ (serNatChars i.natAbs).length := List.length_pos.mpr h
    simp only [jsize, serJsonChars, serIntChars]
    split
    · simp
    · exact hlen
  | .str s => by simp [jsize, serJsonChars, serStringChars]
  | .arr es => by
    have h := jsizeElems_le_serElems es
    simp only [jsize, serJsonChars, List.length_cons]
    omega
  | .obj fs => by
    have h := jsizeFields_le_serFields fs
    simp only [jsize, serJsonChars, List.length_cons]
    omega
theorem jsizeElems_le_serElems : ∀ vs : List Json, jsizeElems vs ≤ (serElems vs).length
  | [] => by simp [jsizeElems, serElems]
  | [v] => by
    have h := jsize_le_serLen v
    simp only [jsizeElems, serElems, List.length_append, List.length_cons]
    simp
    omega
  | v :: v2 :: vs => by
    have h1 := jsize_le_serLen v
    have h2 := jsizeElems_le_serElems (v2 :: vs)
    simp only [jsizeElems, serElems, List.length_append, List.length_cons] at h2 ⊢
    omega
theorem jsizeFields_le_serFields : ∀ fs : List (String × Json), jsizeFields fs ≤ (serFields fs).length
  | [] => by simp [jsizeFields, serFields]
  | [(k, v)] => by
    have h := jsize_le_serLen v
    simp only [jsizeFields, serFields, List.length_append, List.length_cons]
    simp
    omega
  | (k, v) :: kv2 :: fs => by
    have h1 := jsize_le_serLen v
    have h2 := jsizeFields_le_serFields (kv2 :: fs)
    simp only [jsizeFields, serFields, List.length_append, List.length_cons] at h2 ⊢
    omega
end

/-- Serializing any JSON value and parsing the result recovers the value:
the model of `JSON.parse (JSON.stringify v) = v`. -/
theorem parseJson_serJson (v : Json) : parseJson (serJson v) = some v := by
  unfold parseJson serJson
  rw [toListMk, lengthMk]
  have h := (parse_ser_fuel ((serJsonChars v).length + 1)).1 v []
    (le_trans (jsize_le_serLen v) (by omega)) rfl
  rw [List.append_nil] at h
  rw [h]
  rfl

/-- C2 (amended): tool calls inside batch events carry the raw
concatenated fragments, which need not be valid JSON text; every
invocation the translator derives from a wire tool call has structured
args — the parsed value when the arguments text parses, and the empty
object when it does not. -/
theorem c2_arguments_fallback (toolCall : OpenAIToolCall) :
    (convertOpenAIToolCallToGemini toolCall).name = toolCall.name
    ∧ ((parseJson toolCall.arguments).isNone = true →
        (convertOpenAIToolCallToGemini toolCall).args = Json.obj [])
    ∧ (∀ v, parseJson toolCall.arguments = some v →
        (convertOpenAIToolCallToGemini toolCall).args = v) := by
  refine ⟨rfl, ?_, ?_⟩
  · intro h
    rw [Option.isNone_iff_eq_none] at h
    simp [convertOpenAIToolCallToGemini, h]
  · intro v h
    simp [convertOpenAIToolCallToGemini, h]

/-- C2 counterexample: a stream that opens a call and then ends after the
unterminated fragment emits a batch whose tool call exposes the raw
fragment as its arguments, and that fragment is not valid JSON text. -/
theorem c2_counterexample :
    chatCompletionStream [openDelta "a" "f", argsDelta "\x7b\"x\":", StreamLine.done]
      = [StreamEvent.toolCalls [⟨"a", "function", "f", "\x7b\"x\":"⟩]]
    ∧ (parseJson "\x7b\"x\":").isNone = true := by
  constructor
  · decide
  · decide

theorem c2_witness :
    (convertOpenAIToolCallToGemini ⟨"a", "function", "f", "\x7b\"x\":"⟩).args = Json.obj [] :=
  (c2_arguments_fallback ⟨"a", "function", "f", "\x7b\"x\":"⟩).2.1 (by decide)

/-- C8: converting a canonical invocation to wire form and back preserves
the name, and when an args record is present the args parsed back from
the wire arguments are exactly that record. -/
theorem c8_roundtrip (functionCall : FunctionCall) (callId : Option String) (freshId : String)
    (r : List (String × Json)) (h : functionCall.args = some r) :
    (convertOpenAIToolCallToGemini
        (convertGeminiFunctionCallToOpenAI functionCall callId freshId)).name
      = functionCall.name
    ∧ (convertOpenAIToolCallToGemini
        (convertGeminiFunctionCallToOpenAI functionCall callId freshId)).args
      = Json.obj r := by
  constructor
  · rfl
  · simp [convertOpenAIToolCallToGemini, convertGeminiFunctionCallToOpenAI, h, parseJson_serJson]

theorem c8_witness :
    (convertOpenAIToolCallToGemini
        (convertGeminiFunctionCallToOpenAI
          ⟨some "id1", "myTool", some [("x", Json.num 1)]⟩ none "call_fresh")).name
      = "myTool"
    ∧ (convertOpenAIToolCallToGemini
        (convertGeminiFunctionCallToOpenAI
          ⟨some "id1", "myTool", some [("x", Json.num 1)]⟩ none "call_fresh")).args
      = Json.obj [("x", Json.num 1)] :=
  c8_roundtrip ⟨some "id1", "myTool", some [("x", Json.num 1)]⟩ none "call_fresh"
    [("x", Json.num 1)] rfl
